import Mathlib

/-!
# Ledger with a mutex and a condition variable, and the even/odd summation

Shallow embedding of

* `src/Multithreading/11.ConditionVariable.cpp` (`addMoney`, `withdrawMoney`, `main`),
* `src/Multithreading/01.Basics.cpp` (`findEven`, `findOdd`, `main`).

`balance` is a `long` (64-bit signed on the LP64 targets the programs are written for), the
`money` parameters are `int` (32-bit signed) and the summation variables are
`unsigned long long` (64-bit unsigned).  Values are carried as `Int` / `Nat`; every arithmetic
result that is stored is reduced to the width of the variable it is stored in.  Signed overflow
is formally undefined in C++; the embedding takes the two's-complement result that the
hardware addition produces.
-/

namespace Ledger

/-! ## Machine integers -/

/-- Smallest value of the 64-bit `long`. -/
def LONG_MIN : Int := -9223372036854775808

/-- Largest value of the 64-bit `long`. -/
def LONG_MAX : Int := 9223372036854775807

/-- Smallest value of the 32-bit `int`. -/
def INT_MIN : Int := -2147483648

/-- Largest value of the 32-bit `int`. -/
def INT_MAX : Int := 2147483647

/-- Values representable in the `long balance`. -/
def isLong (x : Int) : Prop := LONG_MIN ≤ x ∧ x ≤ LONG_MAX

/-- Values representable in an `int money` parameter. -/
def isInt (x : Int) : Prop := INT_MIN ≤ x ∧ x ≤ INT_MAX

instance (x : Int) : Decidable (isLong x) := by unfold isLong; infer_instance

instance (x : Int) : Decidable (isInt x) := by unfold isInt; infer_instance

/-- Two's-complement reduction of an exact result to the 64-bit signed range. -/
def wrapLong (x : Int) : Int :=
  (x + 9223372036854775808) % 18446744073709551616 - 9223372036854775808

/-! ## Call level: one call executed on its own

The body of each function as it runs between taking and releasing the mutex, with no other
thread interfering. -/

/-- How a call of `withdrawMoney` ends: the `if` branch (`Amount Deducted`), the `else` branch
(`Amount Can't Be Deducted`), or suspended inside `cv.wait` because `balance != 0` is false. -/
inductive Outcome
  | completed
  | rejected
  | waiting
  deriving DecidableEq, Repr

/-- Result of one call: how it ended and the balance it leaves. -/
structure CallResult where
  outcome : Outcome
  balance : Int
  deriving DecidableEq, Repr

/-- Function `addMoney(money)`: `balance += money;` (then `cv.notify_one()`); there is no check of
`money` and no wait. -/
def addMoney (balance money : Int) : CallResult :=
  ⟨Outcome.completed, wrapLong (balance + money)⟩

/-- Function `withdrawMoney(money)`: `cv.wait(ul, [] { return balance != 0; })`, then
`if (balance >= money) balance -= money; else` report. -/
def withdrawMoney (balance money : Int) : CallResult :=
  if balance ≠ 0 then
    if balance ≥ money then
      ⟨Outcome.completed, wrapLong (balance - money)⟩
    else
      ⟨Outcome.rejected, balance⟩
  else
    ⟨Outcome.waiting, balance⟩

/-- A call of one of the two functions. -/
inductive Call
  | add (money : Int)
  | withdraw (money : Int)
  deriving DecidableEq, Repr

/-- Balance left by one call. -/
def Call.apply (balance : Int) : Call → Int
  | Call.add money => (addMoney balance money).balance
  | Call.withdraw money => (withdrawMoney balance money).balance

/-- Balance left by a sequence of calls, one after the other. -/
def applyCalls (balance : Int) : List Call → Int
  | [] => balance
  | c :: cs => applyCalls (c.apply balance) cs

/-- Exact (unreduced) value that a call stores into `balance`, or the old balance when it
stores nothing. -/
def Call.exact (balance : Int) : Call → Int
  | Call.add money => balance + money
  | Call.withdraw money =>
    if balance ≠ 0 ∧ balance ≥ money then balance - money else balance

/-- Every value stored during the sequence of calls fits the 64-bit signed `balance`. -/
def fitsLong (balance : Int) : List Call → Prop
  | [] => True
  | c :: cs => isLong (c.exact balance) ∧ fitsLong (c.apply balance) cs

/-- Deposits of the sequence have amounts `>= 0` (withdrawals are unrestricted). -/
def depositsNonneg : List Call → Prop
  | [] => True
  | Call.add money :: cs => 0 ≤ money ∧ depositsNonneg cs
  | Call.withdraw _ :: cs => depositsNonneg cs

/-! ## Thread level: interleaved execution under the mutex `m` and the condition variable `cv`

Each thread runs one call.  Its program counter names the statement it executes next; the
read and the write of `balance += money` / `balance -= money` are separate steps, so that
the protection of `balance` is a property of the locking and not of the model. -/

/-- Program counter of a thread.  `a…` are the statements of `addMoney`, `w…` those of
`withdrawMoney`. -/
inductive Pc
  /-- Statement `std::lock_guard<mutex> lg(m);` -/
  | aLock
  /-- Statement `balance += money;`, reading `balance` -/
  | aLoad
  /-- Statement `balance += money;`, writing the sum computed from the value read -/
  | aStore (tmp : Int)
  /-- Statement `cv.notify_one();` -/
  | aNotify
  /-- End of scope: `lg` releases `m` -/
  | aUnlock
  /-- Returned from `addMoney` -/
  | aDone
  /-- Statement `std::unique_lock<mutex> ul(m);` -/
  | wLock
  /-- Inside `cv.wait(ul, pred)`: evaluating `balance != 0` with `m` held -/
  | wCheck
  /-- Inside `cv.wait(ul, pred)`: suspended on `cv`, `m` released -/
  | wBlocked
  /-- Inside `cv.wait(ul, pred)`: woken up, reacquiring `m` -/
  | wWoken
  /-- Statement `if (balance >= money)` -/
  | wCompare
  /-- Statement `balance -= money;`, reading `balance` -/
  | wLoad
  /-- Statement `balance -= money;`, writing the difference computed from the value read -/
  | wStore (tmp : Int)
  /-- End of scope: `ul` releases `m`; `r` records the branch taken -/
  | wUnlock (r : Outcome)
  /-- Returned from `withdrawMoney` -/
  | wDone (r : Outcome)
  deriving DecidableEq, Repr

/-- A thread: the `money` argument of its call and its program counter. -/
structure Thread where
  money : Int
  pc : Pc
  deriving DecidableEq, Repr

/-- Thread `std::thread t(addMoney, money)` before its first step. -/
def Thread.deposit (money : Int) : Thread := ⟨money, Pc.aLock⟩

/-- Thread `std::thread t(withdrawMoney, money)` before its first step. -/
def Thread.withdrawal (money : Int) : Thread := ⟨money, Pc.wLock⟩

/-- Shared state: the global `balance`, the mutex `m` (`none` when free, otherwise the index
of the thread that locked it) and the threads. -/
structure State where
  balance : Int
  owner : Option Nat
  threads : List Thread
  deriving DecidableEq, Repr

/-- All threads created, none has run; `m` is free. -/
def State.init (balance : Int) (threads : List Thread) : State := ⟨balance, none, threads⟩

/-- Some thread is suspended on `cv`. -/
def anyBlocked (ts : List Thread) : Bool := ts.any (fun t => t.pc == Pc.wBlocked)

/-- Scheduler choices.  `run i`: thread `i` executes its next statement.  `notify i j`: the
`cv.notify_one()` of thread `i` wakes the suspended thread `j`.  `spurious j`: the suspended
thread `j` wakes up without a notification. -/
inductive Act
  | run (i : Nat)
  | notify (i j : Nat)
  | spurious (j : Nat)
  deriving DecidableEq, Repr

/-- Replace the program counter of thread `i`. -/
def setPc (ts : List Thread) (i : Nat) (t : Thread) (pc : Pc) : List Thread :=
  ts.set i { t with pc := pc }

/-- The next statement of thread `i` (currently `t`) in state `s`; `none` when the thread
cannot move by itself (mutex taken, suspended on `cv`, returned). -/
def stepThread (s : State) (i : Nat) (t : Thread) : Option State :=
  match t.pc with
  | Pc.aLock =>
    if s.owner = none then some ⟨s.balance, some i, setPc s.threads i t Pc.aLoad⟩ else none
  | Pc.aLoad => some ⟨s.balance, s.owner, setPc s.threads i t (Pc.aStore s.balance)⟩
  | Pc.aStore tmp => some ⟨wrapLong (tmp + t.money), s.owner, setPc s.threads i t Pc.aNotify⟩
  | Pc.aNotify =>
    if anyBlocked s.threads then none
    else some ⟨s.balance, s.owner, setPc s.threads i t Pc.aUnlock⟩
  | Pc.aUnlock => some ⟨s.balance, none, setPc s.threads i t Pc.aDone⟩
  | Pc.aDone => none
  | Pc.wLock =>
    if s.owner = none then some ⟨s.balance, some i, setPc s.threads i t Pc.wCheck⟩ else none
  | Pc.wCheck =>
    if s.balance ≠ 0 then some ⟨s.balance, s.owner, setPc s.threads i t Pc.wCompare⟩
    else some ⟨s.balance, none, setPc s.threads i t Pc.wBlocked⟩
  | Pc.wBlocked => none
  | Pc.wWoken =>
    if s.owner = none then some ⟨s.balance, some i, setPc s.threads i t Pc.wCheck⟩ else none
  | Pc.wCompare =>
    if s.balance ≥ t.money then some ⟨s.balance, s.owner, setPc s.threads i t Pc.wLoad⟩
    else some ⟨s.balance, s.owner, setPc s.threads i t (Pc.wUnlock Outcome.rejected)⟩
  | Pc.wLoad => some ⟨s.balance, s.owner, setPc s.threads i t (Pc.wStore s.balance)⟩
  | Pc.wStore tmp =>
    some ⟨wrapLong (tmp - t.money), s.owner, setPc s.threads i t (Pc.wUnlock Outcome.completed)⟩
  | Pc.wUnlock r => some ⟨s.balance, none, setPc s.threads i t (Pc.wDone r)⟩
  | Pc.wDone _ => none

/-- One scheduler choice. -/
def step (s : State) : Act → Option State
  | Act.run i =>
    match s.threads[i]? with
    | some t => stepThread s i t
    | none => none
  | Act.notify i j =>
    match s.threads[i]?, s.threads[j]? with
    | some t, some u =>
      if t.pc = Pc.aNotify ∧ u.pc = Pc.wBlocked then
        some ⟨s.balance, s.owner, setPc (setPc s.threads i t Pc.aUnlock) j u Pc.wWoken⟩
      else none
    | _, _ => none
  | Act.spurious j =>
    match s.threads[j]? with
    | some u =>
      if u.pc = Pc.wBlocked then some ⟨s.balance, s.owner, setPc s.threads j u Pc.wWoken⟩
      else none
    | none => none

/-- A schedule, executed from left to right; `none` when a choice is not enabled. -/
def exec (s : State) : List Act → Option State
  | [] => some s
  | a :: as =>
    match step s a with
    | some s' => exec s' as
    | none => none

/-- The call of the thread has returned. -/
def Pc.isDone : Pc → Bool
  | Pc.aDone => true
  | Pc.wDone _ => true
  | _ => false

/-- Every call has returned. -/
def State.final (s : State) : Bool := s.threads.all (fun t => t.pc.isDone)

/-- The thread is inside `cv.wait` (checking the predicate, suspended, or reacquiring). -/
def Pc.inWait : Pc → Bool
  | Pc.wCheck => true
  | Pc.wBlocked => true
  | Pc.wWoken => true
  | _ => false

/-- The thread runs `addMoney`. -/
def Pc.isDeposit : Pc → Bool
  | Pc.aLock => true
  | Pc.aLoad => true
  | Pc.aStore _ => true
  | Pc.aNotify => true
  | Pc.aUnlock => true
  | Pc.aDone => true
  | _ => false

/-- A choice that is not a spontaneous wake-up. -/
def Act.isProper : Act → Bool
  | Act.spurious _ => false
  | _ => true

/-! ## Thread level: invariants and proof devices -/

/-- The thread is between taking and releasing `m`. -/
def Pc.holds : Pc → Bool
  | Pc.aLoad => true
  | Pc.aStore _ => true
  | Pc.aNotify => true
  | Pc.aUnlock => true
  | Pc.wCheck => true
  | Pc.wCompare => true
  | Pc.wLoad => true
  | Pc.wStore _ => true
  | Pc.wUnlock _ => true
  | _ => false

/-- The thread is past `cv.wait` and has not yet written `balance` or been rejected. -/
def Pc.pastWait : Pc → Bool
  | Pc.wCompare => true
  | Pc.wLoad => true
  | Pc.wStore _ => true
  | _ => false

/-- The value read by a thread that is about to write `balance`. -/
def Pc.tmp? : Pc → Option Int
  | Pc.aStore tmp => some tmp
  | Pc.wStore tmp => some tmp
  | _ => none

/-- What the thread has added to `balance` so far: `money` once `addMoney` has written,
`-money` once `withdrawMoney` has written. -/
def Thread.effect (t : Thread) : Int :=
  match t.pc with
  | Pc.aNotify => t.money
  | Pc.aUnlock => t.money
  | Pc.aDone => t.money
  | Pc.wUnlock Outcome.completed => -t.money
  | Pc.wDone Outcome.completed => -t.money
  | _ => 0

/-- Sum of what the threads have added to `balance` so far. -/
def netEffect (ts : List Thread) : Int := (ts.map Thread.effect).sum

/-- Threads for a list of calls, none of which has run. -/
def spawn (cs : List Call) : List Thread :=
  cs.map fun c =>
    match c with
    | Call.add money => Thread.deposit money
    | Call.withdraw money => Thread.withdrawal money

/-- Sum of the amounts of the `addMoney` threads. -/
def depositSum (ts : List Thread) : Int :=
  (ts.map fun t => if t.pc.isDeposit then t.money else 0).sum

/-- Sum of the amounts of the `withdrawMoney` threads that returned from the deducting
branch. -/
def completedSum (ts : List Thread) : Int :=
  (ts.map fun t => if t.pc = Pc.wDone Outcome.completed then t.money else 0).sum

/-- Per-thread part of the invariant: a thread between lock and unlock is the owner of `m`, a
value read for a write is the current balance, and past `cv.wait` the balance is not 0. -/
def Thread.ok (balance : Int) (owner : Option Nat) (i : Nat) (t : Thread) : Prop :=
  (t.pc.holds = true → owner = some i) ∧
    (∀ tmp, t.pc.tmp? = some tmp → tmp = balance) ∧
    (t.pc.pastWait = true → balance ≠ 0)

/-- Invariant of every interleaving started with balance `b0`: the balance is `b0` plus what
the threads have added so far (reduced to 64 bits), every thread satisfies `Thread.ok`, and
the owner of `m` is a thread between lock and unlock. -/
def Inv (b0 : Int) (s : State) : Prop :=
  s.balance = wrapLong (b0 + netEffect s.threads) ∧
    (∀ (i : Nat) (t : Thread), s.threads[i]? = some t → t.ok s.balance s.owner i) ∧
    (∀ k : Nat, s.owner = some k → ∃ t : Thread, s.threads[k]? = some t ∧ t.pc.holds = true)

/-- A choice that is not a statement of an `addMoney` thread: a wake-up, or a statement of a
`withdrawMoney` thread. -/
def Act.noDeposit (ts : List Thread) : Act → Bool
  | Act.run j =>
    match ts[j]? with
    | some t => !t.pc.isDeposit
    | none => true
  | _ => true

/-- Sum of the amounts of the `addMoney` calls. -/
def deposits : List Call → Int
  | [] => 0
  | Call.add money :: cs => money + deposits cs
  | Call.withdraw _ :: cs => deposits cs

/-- The program of `main` for an amount `a`: thread 0 runs `withdrawMoney(a)`, thread 1 runs
`addMoney(a)`, `balance` starts at 0. -/
def mainState (a : Int) : State := State.init 0 [Thread.withdrawal a, Thread.deposit a]

/-- The program of `main` as written: `t1(withdrawMoney, 500)`, `t2(addMoney, 500)`. -/
def mainInit : State := mainState 500

/-- Proof device for `main`: the combinations of program counters (of the withdrawing thread
`wp` and the depositing thread `dp`) that an interleaving can reach, each with the balance
and the owner of `m` that go with it. -/
def mainTable (a : Int) (wp dp : Pc) : Option (Int × Option Nat) :=
  match dp with
  | Pc.aLock =>
    match wp with
    | Pc.wLock => some (0, none)
    | Pc.wCheck => some (0, some 0)
    | Pc.wBlocked => some (0, none)
    | Pc.wWoken => some (0, none)
    | _ => none
  | Pc.aLoad =>
    match wp with
    | Pc.wLock => some (0, some 1)
    | Pc.wBlocked => some (0, some 1)
    | Pc.wWoken => some (0, some 1)
    | _ => none
  | Pc.aStore tmp =>
    match wp with
    | Pc.wLock => if tmp = 0 then some (0, some 1) else none
    | Pc.wBlocked => if tmp = 0 then some (0, some 1) else none
    | Pc.wWoken => if tmp = 0 then some (0, some 1) else none
    | _ => none
  | Pc.aNotify =>
    match wp with
    | Pc.wLock => some (a, some 1)
    | Pc.wBlocked => some (a, some 1)
    | Pc.wWoken => some (a, some 1)
    | _ => none
  | Pc.aUnlock =>
    match wp with
    | Pc.wLock => some (a, some 1)
    | Pc.wWoken => some (a, some 1)
    | _ => none
  | Pc.aDone =>
    match wp with
    | Pc.wLock => some (a, none)
    | Pc.wWoken => some (a, none)
    | Pc.wCheck => some (a, some 0)
    | Pc.wCompare => some (a, some 0)
    | Pc.wLoad => some (a, some 0)
    | Pc.wStore tmp => if tmp = a then some (a, some 0) else none
    | Pc.wUnlock Outcome.completed => some (0, some 0)
    | Pc.wDone Outcome.completed => some (0, none)
    | _ => none
  | _ => none

/-- Proof device for `main`: the state is one of those listed in `mainTable`. -/
def MainInv (a : Int) (s : State) : Prop :=
  ∃ wp dp : Pc, s.threads = [⟨a, wp⟩, ⟨a, dp⟩] ∧ mainTable a wp dp = some (s.balance, s.owner)

/-- Proof device for `main`: a choice that is enabled in the listed state with program
counters `wp`, `dp`. -/
def mainNext (wp dp : Pc) : Act :=
  match dp with
  | Pc.aLock =>
    match wp with
    | Pc.wCheck => Act.run 0
    | _ => Act.run 1
  | Pc.aNotify =>
    match wp with
    | Pc.wBlocked => Act.notify 1 0
    | _ => Act.run 1
  | Pc.aDone => Act.run 0
  | _ => Act.run 1

/-- A `withdrawMoney` thread that has not yet written `balance` nor been rejected. -/
def Pc.owes : Pc → Bool
  | Pc.wLock => true
  | Pc.wCheck => true
  | Pc.wBlocked => true
  | Pc.wWoken => true
  | Pc.wCompare => true
  | Pc.wLoad => true
  | Pc.wStore _ => true
  | _ => false

/-- Number of `withdrawMoney` threads that have not yet written `balance` nor been
rejected. -/
def owing (ts : List Thread) : Int := (ts.map fun t => if t.pc.owes then (1 : Int) else 0).sum

/-- A `withdrawMoney` thread that was never suspended and is not rejected. -/
def Pc.onTrack : Pc → Bool
  | Pc.wLock => true
  | Pc.wCheck => true
  | Pc.wCompare => true
  | Pc.wLoad => true
  | Pc.wStore _ => true
  | Pc.wUnlock Outcome.completed => true
  | Pc.wDone Outcome.completed => true
  | _ => false

/-- Proof device for the pre-loading scenario: thread 0 is the returned deposit, every other
thread is a withdrawal of 1 that was never suspended nor rejected, and the balance is the
number of withdrawals still to be written. -/
def FairInv (n : Nat) (s : State) : Prop :=
  Inv 0 s ∧ s.threads.length = n + 1 ∧ s.threads[0]? = some ⟨n, Pc.aDone⟩ ∧
    (∀ (i : Nat) (t : Thread), s.threads[i + 1]? = some t →
      t.money = 1 ∧ t.pc.onTrack = true) ∧
    s.balance = owing s.threads

/-- Proof device for `main`: statements the depositing thread still has to execute. -/
def depositRank : Pc → Nat
  | Pc.aLock => 5
  | Pc.aLoad => 4
  | Pc.aStore _ => 3
  | Pc.aNotify => 2
  | Pc.aUnlock => 1
  | _ => 0

/-- Proof device for `main`: the depositing thread has written `balance`. -/
def Pc.stored : Pc → Bool
  | Pc.aNotify => true
  | Pc.aUnlock => true
  | Pc.aDone => true
  | _ => false

/-- Proof device for `main`: a bound on the statements the withdrawing thread still has to
execute when no spurious wake-up occurs; inside `cv.wait` it depends on whether the deposit
has been written. -/
def withdrawRank (stored : Bool) : Pc → Nat
  | Pc.wLock => 11
  | Pc.wWoken => if stored then 7 else 10
  | Pc.wCheck => if stored then 6 else 9
  | Pc.wBlocked => 8
  | Pc.wCompare => 5
  | Pc.wLoad => 4
  | Pc.wStore _ => 3
  | Pc.wUnlock _ => 2
  | _ => 0

/-- Proof device for `main`: a bound on the number of choices other than spurious wake-ups
that can still be made. -/
def mainRank (s : State) : Nat :=
  match s.threads with
  | [w, d] => withdrawRank d.pc.stored w.pc + depositRank d.pc
  | _ => 0

/-- A `withdrawMoney` thread that has not been rejected. -/
def Pc.sound : Pc → Bool
  | Pc.wLock => true
  | Pc.wCheck => true
  | Pc.wBlocked => true
  | Pc.wWoken => true
  | Pc.wCompare => true
  | Pc.wLoad => true
  | Pc.wStore _ => true
  | Pc.wUnlock Outcome.completed => true
  | Pc.wDone Outcome.completed => true
  | _ => false

end Ledger

namespace Basics

/-! ## The summation loops of `01.Basics.cpp`

`ull` is `unsigned long long`; its arithmetic is modulo `2^64`.  The loop
`for (ull i = start; i <= end; i++)` is run with a bound on the number of times its
condition is evaluated, since for `end = 2^64 - 1` the condition never fails. -/

/-- Number of values of `unsigned long long`. -/
def ULL : Nat := 18446744073709551616

/-- Loop of `findEven` from the current `i`: `none` when the bound on the number of
evaluations of `i <= end` is used up, otherwise the value of `EvenSum` when the loop exits. -/
def findEvenLoop : Nat → Nat → Nat → Nat → Option Nat
  | 0, _, _, _ => none
  | fuel + 1, i, «end», EvenSum =>
    if i ≤ «end» then
      findEvenLoop fuel ((i + 1) % ULL) «end»
        (if i &&& 1 = 0 then (EvenSum + i) % ULL else EvenSum)
    else some EvenSum

/-- Function `findEven(start, end)` acting on the global `EvenSum`. -/
def findEven (fuel start «end» EvenSum : Nat) : Option Nat :=
  findEvenLoop fuel start «end» EvenSum

/-- Loop of `findOdd` from the current `i`. -/
def findOddLoop : Nat → Nat → Nat → Nat → Option Nat
  | 0, _, _, _ => none
  | fuel + 1, i, «end», OddSum =>
    if i ≤ «end» then
      findOddLoop fuel ((i + 1) % ULL) «end»
        (if i &&& 1 = 1 then (OddSum + i) % ULL else OddSum)
    else some OddSum

/-- Function `findOdd(start, end)` acting on the global `OddSum`. -/
def findOdd (fuel start «end» OddSum : Nat) : Option Nat :=
  findOddLoop fuel start «end» OddSum

/-- Specification of the result: the sum of the even integers `i` with
`start <= i <= end`. -/
def evenTotal (start «end» : Nat) : Nat :=
  ∑ i in (Finset.Icc start «end»).filter (fun i => i % 2 = 0), i

/-- Specification of the result: the sum of the odd integers `i` with
`start <= i <= end`. -/
def oddTotal (start «end» : Nat) : Nat :=
  ∑ i in (Finset.Icc start «end»).filter (fun i => i % 2 = 1), i

end Basics

/-! # Theorems -/

namespace Ledger

/-! ## Arithmetic of the 64-bit reduction -/

theorem wrapLong_of_isLong {x : Int} (h : isLong x) : wrapLong x = x := by
  unfold isLong LONG_MIN LONG_MAX at h
  unfold wrapLong
  omega

theorem isLong_wrapLong (x : Int) : isLong (wrapLong x) := by
  unfold isLong LONG_MIN LONG_MAX wrapLong
  omega

theorem wrapLong_add_left (x y : Int) : wrapLong (wrapLong x + y) = wrapLong (x + y) := by
  unfold wrapLong
  omega

theorem wrapLong_sub_left (x y : Int) : wrapLong (wrapLong x - y) = wrapLong (x - y) := by
  unfold wrapLong
  omega

/-! ## Call level -/

/-- C1: on a nonzero balance `b` (a value of the 64-bit `long`) and for an amount `a > 0`,
`withdrawMoney` ends in the deducting branch exactly when `b >= a`, and then leaves exactly
`b - a`. -/
theorem withdraw_completed_iff (b a : Int) (hb : isLong b) (hb0 : b ≠ 0) (ha : 0 < a) :
    ((withdrawMoney b a).outcome = Outcome.completed ↔ b ≥ a) ∧
      (b ≥ a → (withdrawMoney b a).balance = b - a) := by
  unfold isLong LONG_MIN LONG_MAX at hb
  constructor
  · unfold withdrawMoney
    rw [if_pos hb0]
    by_cases h : b ≥ a
    · simp [h]
    · simp [h]
  · intro h
    unfold withdrawMoney
    rw [if_pos hb0, if_pos h]
    show wrapLong (b - a) = b - a
    exact wrapLong_of_isLong (by unfold isLong LONG_MIN LONG_MAX; omega)

theorem withdraw_completed_iff_witness :
    (((withdrawMoney 700 500).outcome = Outcome.completed ↔ (700 : Int) ≥ 500) ∧
      ((700 : Int) ≥ 500 → (withdrawMoney 700 500).balance = 700 - 500)) ∧
    (withdrawMoney 700 500).balance = 200 :=
  ⟨withdraw_completed_iff 700 500 (by decide) (by decide) (by decide), by decide⟩

/-- C2: on a nonzero balance `b`, negative included, an amount `a > b` with `a > 0` is not
made to wait: the call ends in the rejecting branch and the balance is still `b`. -/
theorem withdraw_insufficient (b a : Int) (hb0 : b ≠ 0) (hab : a > b) (_ha : 0 < a) :
    (withdrawMoney b a).outcome ≠ Outcome.waiting ∧
      (withdrawMoney b a).outcome = Outcome.rejected ∧
      (withdrawMoney b a).balance = b := by
  have h : ¬ b ≥ a := by omega
  unfold withdrawMoney
  rw [if_pos hb0, if_neg h]
  simp

theorem withdraw_insufficient_witness :
    (withdrawMoney 50 100).outcome ≠ Outcome.waiting ∧
      (withdrawMoney 50 100).outcome = Outcome.rejected ∧
      (withdrawMoney 50 100).balance = 50 :=
  withdraw_insufficient 50 100 (by decide) (by decide) (by decide)

/-- C3 does not hold of the code: `addMoney(-5)` on balance 0 returns normally and
leaves -5, not the unchanged 0; `withdrawMoney(0)` on balance 50 runs the deducting branch
instead of failing; and `withdrawMoney(-5)` on balance 7 leaves 12, not the unchanged 7. -/
theorem invalid_amount_not_rejected :
    addMoney 0 (-5) = ⟨Outcome.completed, -5⟩ ∧ (addMoney 0 (-5)).balance ≠ 0 ∧
      withdrawMoney 50 0 = ⟨Outcome.completed, 50⟩ ∧
      withdrawMoney 7 (-5) = ⟨Outcome.completed, 12⟩ ∧ (withdrawMoney 7 (-5)).balance ≠ 7 := by
  decide

/-- C3, amended: an amount `a <= 0` is not refused.  `addMoney` returns normally and leaves
`b + a`; `withdrawMoney` waits on balance 0 leaving it unchanged, on a nonzero `b >= a` runs
the deducting branch and leaves `b - a`, and on a nonzero `b < a` is rejected leaving `b`
(sums and differences as far as they fit the 64-bit balance). -/
theorem nonpositive_amount_processed (b a : Int) (_ha : a ≤ 0) :
    (addMoney b a).outcome = Outcome.completed ∧
      (isLong (b + a) → (addMoney b a).balance = b + a) ∧
      (b = 0 → withdrawMoney b a = ⟨Outcome.waiting, b⟩) ∧
      (b ≠ 0 → b ≥ a → (withdrawMoney b a).outcome = Outcome.completed ∧
        (isLong (b - a) → (withdrawMoney b a).balance = b - a)) ∧
      (b ≠ 0 → b < a → withdrawMoney b a = ⟨Outcome.rejected, b⟩) := by
  refine ⟨rfl, fun h => wrapLong_of_isLong h, ?_, ?_, ?_⟩
  · intro h0
    unfold withdrawMoney
    simp [h0]
  · intro h0 hge
    unfold withdrawMoney
    rw [if_pos h0, if_pos hge]
    exact ⟨rfl, fun h => wrapLong_of_isLong h⟩
  · intro h0 hlt
    have h : ¬ b ≥ a := by omega
    unfold withdrawMoney
    rw [if_pos h0, if_neg h]

theorem nonpositive_amount_processed_witness :
    (addMoney 10 (-5)).balance = 5 ∧ (withdrawMoney 10 (-5)).balance = 15 :=
  ⟨(nonpositive_amount_processed 10 (-5) (by decide)).2.1 (by decide),
   ((nonpositive_amount_processed 10 (-5) (by decide)).2.2.2.1 (by decide) (by decide)).2
     (by decide)⟩

/-- C9 does not hold of the code: from the balance `2^63 - 1 >= 0` the call
`addMoney(1)` (an amount `>= 0`) leaves `-2^63`, a negative balance. -/
theorem nonneg_broken_by_overflow :
    (0 : Int) ≤ 9223372036854775807 ∧ depositsNonneg [Call.add 1] ∧
      applyCalls 9223372036854775807 [Call.add 1] = -9223372036854775808 ∧
      applyCalls 9223372036854775807 [Call.add 1] < 0 := by
  refine ⟨by decide, ⟨by decide, trivial⟩, by decide, by decide⟩

theorem apply_eq_exact (b : Int) (c : Call) (h : isLong (c.exact b)) : c.apply b = c.exact b := by
  cases c with
  | add m => exact wrapLong_of_isLong h
  | withdraw m =>
    simp only [Call.exact] at h
    simp only [Call.apply, Call.exact, withdrawMoney]
    by_cases h0 : b ≠ 0
    · by_cases hge : b ≥ m
      · rw [if_pos h0, if_pos hge, if_pos ⟨h0, hge⟩]
        rw [if_pos ⟨h0, hge⟩] at h
        exact wrapLong_of_isLong h
      · rw [if_pos h0, if_neg hge, if_neg (fun hh => hge hh.2)]
    · rw [if_neg h0, if_neg (fun hh => h0 hh.1)]

/-- C9, amended: from a balance `>= 0`, a sequence of `addMoney` calls with amounts `>= 0`
and `withdrawMoney` calls with any amounts, in which every value stored fits the 64-bit
balance, leaves a balance `>= 0`. -/
theorem nonneg_preserved (cs : List Call) (b : Int) (hb : 0 ≤ b) (hd : depositsNonneg cs)
    (hf : fitsLong b cs) : 0 ≤ applyCalls b cs := by
  induction cs generalizing b with
  | nil => exact hb
  | cons c cs ih =>
    obtain ⟨hfit, hrest⟩ := hf
    have heq := apply_eq_exact b c hfit
    cases c with
    | add m =>
      obtain ⟨hm, hd'⟩ := hd
      refine ih _ ?_ hd' hrest
      rw [heq]
      simp only [Call.exact]
      omega
    | withdraw m =>
      refine ih _ ?_ hd hrest
      rw [heq]
      simp only [Call.exact]
      split <;> omega

theorem nonneg_preserved_witness :
    0 ≤ applyCalls 0 [Call.withdraw 5, Call.add 500, Call.withdraw (-3), Call.withdraw 400,
      Call.withdraw 200] :=
  nonneg_preserved _ 0 (by decide)
    ⟨by decide, trivial⟩
    ⟨by decide, by decide, by decide, by decide, by decide, trivial⟩

/-! ## Thread level: bookkeeping on the thread list -/

theorem sum_map_set {α : Type} (f : α → Int) (l : List α) (i : Nat) (a b : α)
    (h : l[i]? = some a) : ((l.set i b).map f).sum = (l.map f).sum - f a + f b := by
  induction l generalizing i with
  | nil => simp at h
  | cons x xs ih =>
    cases i with
    | zero =>
      simp only [List.getElem?_cons_zero, Option.some.injEq] at h
      subst h
      simp only [List.set_cons_zero, List.map_cons, List.sum_cons]
      omega
    | succ n =>
      simp only [List.getElem?_cons_succ] at h
      simp only [List.set_cons_succ, List.map_cons, List.sum_cons, ih n h]
      omega

theorem lt_length_of_getElem? {α : Type} {l : List α} {i : Nat} {a : α} (h : l[i]? = some a) :
    i < l.length := by
  obtain ⟨hlt, _⟩ := List.getElem?_eq_some.mp h
  exact hlt

theorem getElem?_setPc_self {ts : List Thread} {i : Nat} {t : Thread} (pc : Pc)
    (h : ts[i]? = some t) : (setPc ts i t pc)[i]? = some ⟨t.money, pc⟩ := by
  unfold setPc
  exact List.getElem?_set_self (lt_length_of_getElem? h)

theorem getElem?_setPc_ne {ts : List Thread} {i j : Nat} (t : Thread) (pc : Pc) (h : i ≠ j) :
    (setPc ts i t pc)[j]? = ts[j]? := by
  unfold setPc
  exact List.getElem?_set_ne h

theorem netEffect_setPc {ts : List Thread} {i : Nat} {t : Thread} (pc : Pc)
    (h : ts[i]? = some t) :
    netEffect (setPc ts i t pc) = netEffect ts - t.effect + Thread.effect ⟨t.money, pc⟩ := by
  unfold netEffect setPc
  exact sum_map_set Thread.effect ts i t _ h

theorem Thread.ok_of_not_holds {t : Thread} (b : Int) (o : Option Nat) (i : Nat)
    (h : t.pc.holds = false) : t.ok b o i := by
  obtain ⟨m, pc⟩ := t
  cases pc <;> simp_all [Thread.ok, Pc.holds, Pc.tmp?, Pc.pastWait]

theorem Inv.isLong_balance {b0 : Int} {s : State} (h : Inv b0 s) : isLong s.balance := by
  rw [h.1]
  exact isLong_wrapLong _

/-- Mutual exclusion: while thread `i` owns `m`, or `m` is free, no other thread is between
lock and unlock. -/
theorem Inv.others_idle {b0 : Int} {s : State} (h : Inv b0 s) {i : Nat}
    (ho : s.owner = none ∨ s.owner = some i) (j : Nat) (u : Thread) (hj : j ≠ i)
    (hu : s.threads[j]? = some u) : u.pc.holds = false := by
  by_contra hh
  have hh' : u.pc.holds = true := by simpa using hh
  have := (h.2.1 j u hu).1 hh'
  rcases ho with ho | ho
  · rw [ho] at this
    cases this
  · rw [ho] at this
    exact hj (Option.some.inj this).symm

/-- Thread `i` moves while no other thread is between lock and unlock. -/
theorem Inv.inv_update {b0 : Int} {s : State} (h : Inv b0 s) {i : Nat} {t : Thread}
    (hi : s.threads[i]? = some t) (ho : s.owner = none ∨ s.owner = some i)
    (pc : Pc) (bal : Int) (own : Option Nat)
    (hbal : bal = wrapLong (s.balance + (Thread.effect ⟨t.money, pc⟩ - t.effect)))
    (hok : Thread.ok bal own i ⟨t.money, pc⟩)
    (hown : ∀ k, own = some k → k = i ∧ pc.holds = true) :
    Inv b0 ⟨bal, own, setPc s.threads i t pc⟩ := by
  refine ⟨?_, ?_, ?_⟩
  · show bal = wrapLong (b0 + netEffect (setPc s.threads i t pc))
    rw [hbal, netEffect_setPc pc hi, h.1, wrapLong_add_left]
    congr 1
    omega
  · intro j u hu
    show u.ok bal own j
    by_cases hj : j = i
    · subst hj
      rw [getElem?_setPc_self pc hi] at hu
      cases hu
      exact hok
    · rw [getElem?_setPc_ne t pc (Ne.symm hj)] at hu
      exact Thread.ok_of_not_holds _ _ _ (h.others_idle ho j u hj hu)
  · intro k hk
    obtain ⟨rfl, hp⟩ := hown k hk
    exact ⟨_, getElem?_setPc_self pc hi, hp⟩

/-- A thread that is not between lock and unlock moves to another such statement, leaving
`balance` and `m` alone. -/
theorem Inv.update_idle {b0 : Int} {s : State} (h : Inv b0 s) {i : Nat} {t : Thread}
    (hi : s.threads[i]? = some t) (pc : Pc) (h1 : t.pc.holds = false) (h2 : pc.holds = false)
    (he : Thread.effect ⟨t.money, pc⟩ = t.effect) :
    Inv b0 ⟨s.balance, s.owner, setPc s.threads i t pc⟩ := by
  refine ⟨?_, ?_, ?_⟩
  · show s.balance = wrapLong (b0 + netEffect (setPc s.threads i t pc))
    rw [netEffect_setPc pc hi, he, h.1]
    congr 2
    omega
  · intro j u hu
    show u.ok s.balance s.owner j
    by_cases hj : j = i
    · subst hj
      rw [getElem?_setPc_self pc hi] at hu
      cases hu
      exact Thread.ok_of_not_holds _ _ _ h2
    · rw [getElem?_setPc_ne t pc (Ne.symm hj)] at hu
      exact h.2.1 j u hu
  · intro k hk
    obtain ⟨u, hu, hp⟩ := h.2.2 k hk
    have hk' : k ≠ i := by
      rintro rfl
      rw [hi] at hu
      cases hu
      rw [h1] at hp
      cases hp
    exact ⟨u, by rw [getElem?_setPc_ne t pc (Ne.symm hk')]; exact hu, hp⟩

theorem Inv.balance_eq_wrap {b0 : Int} {s : State} (h : Inv b0 s) :
    s.balance = wrapLong s.balance := by
  rw [wrapLong_of_isLong h.isLong_balance]

/-- The invariant survives a statement of thread `i`. -/
theorem Inv.inv_stepThread {b0 : Int} {s s' : State} (h : Inv b0 s) {i : Nat} {t : Thread}
    (hi : s.threads[i]? = some t) (hs : stepThread s i t = some s') : Inv b0 s' := by
  have hz := h.balance_eq_wrap
  have hok := h.2.1 i t hi
  obtain ⟨m, pc⟩ := t
  cases pc with
  | aLock =>
    simp only [Ledger.stepThread] at hs
    split at hs
    · cases hs
      rename_i ho
      refine h.inv_update hi (Or.inl ho) _ _ _ ?_ ?_ ?_ <;>
        simp [Thread.effect, Thread.ok, Pc.holds, Pc.tmp?, Pc.pastWait]
      exact hz
    · cases hs
  | aLoad =>
    simp only [Ledger.stepThread] at hs
    cases hs
    have ho : s.owner = some i := hok.1 rfl
    refine h.inv_update hi (Or.inr ho) _ _ _ ?_ ?_ ?_ <;>
      simp [Thread.effect, Thread.ok, Pc.holds, Pc.tmp?, Pc.pastWait, ho]
    exact hz
  | aStore tmp =>
    simp only [Ledger.stepThread] at hs
    cases hs
    have ho : s.owner = some i := hok.1 rfl
    have ht : tmp = s.balance := hok.2.1 tmp rfl
    refine h.inv_update hi (Or.inr ho) _ _ _ ?_ ?_ ?_ <;>
      simp [Thread.effect, Thread.ok, Pc.holds, Pc.tmp?, Pc.pastWait, ho, ht]
  | aNotify =>
    simp only [Ledger.stepThread] at hs
    split at hs
    · cases hs
    · cases hs
      have ho : s.owner = some i := hok.1 rfl
      refine h.inv_update hi (Or.inr ho) _ _ _ ?_ ?_ ?_ <;>
        simp [Thread.effect, Thread.ok, Pc.holds, Pc.tmp?, Pc.pastWait, ho]
      exact hz
  | aUnlock =>
    simp only [Ledger.stepThread] at hs
    cases hs
    have ho : s.owner = some i := hok.1 rfl
    refine h.inv_update hi (Or.inr ho) _ _ _ ?_ ?_ ?_ <;>
      simp [Thread.effect, Thread.ok, Pc.holds, Pc.tmp?, Pc.pastWait]
    exact hz
  | aDone => simp [Ledger.stepThread] at hs
  | wLock =>
    simp only [Ledger.stepThread] at hs
    split at hs
    · cases hs
      rename_i ho
      refine h.inv_update hi (Or.inl ho) _ _ _ ?_ ?_ ?_ <;>
        simp [Thread.effect, Thread.ok, Pc.holds, Pc.tmp?, Pc.pastWait]
      exact hz
    · cases hs
  | wCheck =>
    simp only [Ledger.stepThread] at hs
    have ho : s.owner = some i := hok.1 rfl
    split at hs
    · cases hs
      rename_i hb
      refine h.inv_update hi (Or.inr ho) _ _ _ ?_ ?_ ?_ <;>
        simp [Thread.effect, Thread.ok, Pc.holds, Pc.tmp?, Pc.pastWait, ho, hb]
      exact hz
    · cases hs
      refine h.inv_update hi (Or.inr ho) _ _ _ ?_ ?_ ?_ <;>
        simp [Thread.effect, Thread.ok, Pc.holds, Pc.tmp?, Pc.pastWait]
      exact hz
  | wBlocked => simp [Ledger.stepThread] at hs
  | wWoken =>
    simp only [Ledger.stepThread] at hs
    split at hs
    · cases hs
      rename_i ho
      refine h.inv_update hi (Or.inl ho) _ _ _ ?_ ?_ ?_ <;>
        simp [Thread.effect, Thread.ok, Pc.holds, Pc.tmp?, Pc.pastWait]
      exact hz
    · cases hs
  | wCompare =>
    simp only [Ledger.stepThread] at hs
    have ho : s.owner = some i := hok.1 rfl
    have hb : s.balance ≠ 0 := hok.2.2 rfl
    split at hs
    · cases hs
      refine h.inv_update hi (Or.inr ho) _ _ _ ?_ ?_ ?_ <;>
        simp [Thread.effect, Thread.ok, Pc.holds, Pc.tmp?, Pc.pastWait, ho, hb]
      exact hz
    · cases hs
      refine h.inv_update hi (Or.inr ho) _ _ _ ?_ ?_ ?_ <;>
        simp [Thread.effect, Thread.ok, Pc.holds, Pc.tmp?, Pc.pastWait, ho]
      exact hz
  | wLoad =>
    simp only [Ledger.stepThread] at hs
    cases hs
    have ho : s.owner = some i := hok.1 rfl
    have hb : s.balance ≠ 0 := hok.2.2 rfl
    refine h.inv_update hi (Or.inr ho) _ _ _ ?_ ?_ ?_ <;>
      simp [Thread.effect, Thread.ok, Pc.holds, Pc.tmp?, Pc.pastWait, ho, hb]
    exact hz
  | wStore tmp =>
    simp only [Ledger.stepThread] at hs
    cases hs
    have ho : s.owner = some i := hok.1 rfl
    have ht : tmp = s.balance := hok.2.1 tmp rfl
    refine h.inv_update hi (Or.inr ho) _ _ _ ?_ ?_ ?_ <;>
      simp [Thread.effect, Thread.ok, Pc.holds, Pc.tmp?, Pc.pastWait, ho, ht]
    rfl
  | wUnlock r =>
    simp only [Ledger.stepThread] at hs
    cases hs
    have ho : s.owner = some i := hok.1 rfl
    refine h.inv_update hi (Or.inr ho) _ _ _ ?_ ?_ ?_ <;>
      simp [Thread.effect, Thread.ok, Pc.holds, Pc.tmp?, Pc.pastWait]
    cases r <;> simp <;> exact hz
  | wDone r => simp [Ledger.stepThread] at hs

/-- The invariant survives every scheduler choice. -/
theorem Inv.inv_step {b0 : Int} {s s' : State} (h : Inv b0 s) (a : Act)
    (hs : step s a = some s') : Inv b0 s' := by
  cases a with
  | run i =>
    simp only [Ledger.step] at hs
    split at hs
    · rename_i t hi
      exact h.inv_stepThread hi hs
    · cases hs
  | notify i j =>
    simp only [Ledger.step] at hs
    split at hs
    · rename_i t u hi hj
      split at hs
      · rename_i hpc
        cases hs
        obtain ⟨m, pc⟩ := t
        obtain ⟨n, pc2⟩ := u
        obtain ⟨h1, h2⟩ := hpc
        simp only at h1 h2
        subst h1
        subst h2
        have hij : i ≠ j := by
          rintro rfl
          rw [hi] at hj
          cases hj
        have ho : s.owner = some i := (h.2.1 i _ hi).1 rfl
        have h' : Inv b0 ⟨s.balance, s.owner, setPc s.threads i ⟨m, Pc.aNotify⟩ Pc.aUnlock⟩ := by
          refine h.inv_update hi (Or.inr ho) _ _ _ ?_ ?_ ?_ <;>
            simp [Thread.effect, Thread.ok, Pc.holds, Pc.tmp?, Pc.pastWait, ho]
          exact h.balance_eq_wrap
        have hj' : (setPc s.threads i ⟨m, Pc.aNotify⟩ Pc.aUnlock)[j]? = some ⟨n, Pc.wBlocked⟩ := by
          rw [getElem?_setPc_ne _ _ hij]
          exact hj
        exact h'.update_idle hj' Pc.wWoken rfl rfl rfl
      · cases hs
    · cases hs
  | spurious j =>
    simp only [Ledger.step] at hs
    split at hs
    · rename_i u hj
      split at hs
      · rename_i hpc
        cases hs
        obtain ⟨n, pc2⟩ := u
        simp only at hpc
        subst hpc
        exact h.update_idle hj Pc.wWoken rfl rfl rfl
      · cases hs
    · cases hs

/-- The invariant holds in every state a schedule passes through. -/
theorem Inv.inv_exec {b0 : Int} (acts : List Act) {s s' : State} (h : Inv b0 s)
    (hs : exec s acts = some s') : Inv b0 s' := by
  induction acts generalizing s with
  | nil =>
    simp only [Ledger.exec, Option.some.injEq] at hs
    subst hs
    exact h
  | cons a as ih =>
    simp only [Ledger.exec] at hs
    split at hs
    · rename_i s1 h1
      exact ih (h.inv_step a h1) hs
    · cases hs

theorem effect_spawn (cs : List Call) : netEffect (spawn cs) = 0 := by
  induction cs with
  | nil => rfl
  | cons c cs ih =>
    cases c <;>
      simpa [netEffect, spawn, Thread.effect, Thread.deposit, Thread.withdrawal] using ih

theorem holds_spawn (cs : List Call) (i : Nat) (t : Thread) (h : (spawn cs)[i]? = some t) :
    t.pc.holds = false := by
  have hm : t ∈ spawn cs := List.mem_iff_getElem?.mpr ⟨i, h⟩
  simp only [spawn, List.mem_map] at hm
  obtain ⟨c, _, hc⟩ := hm
  cases c <;> (subst hc; rfl)

/-- The invariant holds before any thread has run. -/
theorem Inv.inv_init (b0 : Int) (hb : isLong b0) (cs : List Call) :
    Inv b0 (State.init b0 (spawn cs)) := by
  refine ⟨?_, ?_, ?_⟩
  · show b0 = wrapLong (b0 + netEffect (spawn cs))
    rw [effect_spawn, Int.add_zero, wrapLong_of_isLong hb]
  · intro i t ht
    exact Thread.ok_of_not_holds _ _ _ (holds_spawn cs i t ht)
  · intro k hk
    cases hk

/-! ## Thread level: no lost update -/

/-- A statement of thread `i` changes the program counter of thread `i` only, and keeps it in
the same function. -/
theorem stepThread_shape {s s' : State} {i : Nat} {t : Thread}
    (hs : stepThread s i t = some s') :
    ∃ pc, s'.threads = setPc s.threads i t pc ∧ pc.isDeposit = t.pc.isDeposit := by
  obtain ⟨m, pc⟩ := t
  cases pc <;> simp only [stepThread] at hs <;> (try split at hs) <;>
    first
    | (cases hs; exact ⟨_, rfl, rfl⟩)
    | cases hs

theorem depositSum_setPc {ts : List Thread} {i : Nat} {t : Thread} (pc : Pc)
    (hi : ts[i]? = some t) (h : pc.isDeposit = t.pc.isDeposit) :
    depositSum (setPc ts i t pc) = depositSum ts := by
  unfold depositSum setPc
  rw [sum_map_set _ ts i t _ hi]
  simp only [h]
  omega

theorem depositSum_step {s s' : State} (a : Act) (hs : step s a = some s') :
    depositSum s'.threads = depositSum s.threads := by
  cases a with
  | run i =>
    simp only [step] at hs
    split at hs
    · rename_i t hi
      obtain ⟨pc, hpc, hk⟩ := stepThread_shape hs
      rw [hpc]
      exact depositSum_setPc pc hi hk
    · cases hs
  | notify i j =>
    simp only [step] at hs
    split at hs
    · rename_i t u hi hj
      split at hs
      · rename_i hpc
        cases hs
        have hij : i ≠ j := by
          rintro rfl
          rw [hi] at hj
          cases hj
          rw [hpc.1] at hpc
          cases hpc.2
        show depositSum (setPc (setPc s.threads i t Pc.aUnlock) j u Pc.wWoken) = _
        rw [depositSum_setPc _ (by rw [getElem?_setPc_ne _ _ hij]; exact hj) (by rw [hpc.2]; rfl),
          depositSum_setPc _ hi (by rw [hpc.1]; rfl)]
      · cases hs
    · cases hs
  | spurious j =>
    simp only [step] at hs
    split at hs
    · rename_i u hj
      split at hs
      · rename_i hpc
        cases hs
        exact depositSum_setPc _ hj (by rw [hpc]; rfl)
      · cases hs
    · cases hs

theorem depositSum_exec (acts : List Act) {s s' : State} (hs : exec s acts = some s') :
    depositSum s'.threads = depositSum s.threads := by
  induction acts generalizing s with
  | nil =>
    simp only [exec, Option.some.injEq] at hs
    subst hs
    rfl
  | cons a as ih =>
    simp only [exec] at hs
    split at hs
    · rename_i s1 h1
      rw [ih hs, depositSum_step a h1]
    · cases hs

theorem depositSum_spawn (cs : List Call) : depositSum (spawn cs) = deposits cs := by
  induction cs with
  | nil => rfl
  | cons c cs ih =>
    cases c <;>
      simpa [depositSum, spawn, deposits, Thread.deposit, Thread.withdrawal, Pc.isDeposit]
        using ih

/-- Once every call has returned, what the threads have added is the deposits minus the
completed withdrawals. -/
theorem netEffect_of_final (ts : List Thread) (h : ts.all (fun t => t.pc.isDone) = true) :
    netEffect ts = depositSum ts - completedSum ts := by
  induction ts with
  | nil => rfl
  | cons t ts ih =>
    simp only [List.all_cons, Bool.and_eq_true] at h
    have ih' := ih h.2
    simp only [netEffect, depositSum, completedSum, List.map_cons, List.sum_cons] at ih' ⊢
    generalize (List.map Thread.effect ts).sum = x at ih' ⊢
    generalize (List.map (fun t => if t.pc.isDeposit = true then t.money else 0) ts).sum = y
      at ih' ⊢
    generalize (List.map (fun t => if t.pc = Pc.wDone Outcome.completed then t.money else 0)
      ts).sum = z at ih' ⊢
    obtain ⟨m, pc⟩ := t
    have hd := h.1
    cases pc <;> simp [Pc.isDone] at hd <;> simp [Thread.effect, Pc.isDeposit]
    · omega
    · rename_i r
      cases r <;> simp <;> omega

/-- C5 does not hold of the code: with initial balance `2^63 - 1` and the single call
`addMoney(1)`, the call returns and the final balance is `-2^63`, not the initial balance
plus the deposit. -/
theorem final_balance_wraps :
    (exec (State.init 9223372036854775807 (spawn [Call.add 1]))
        [Act.run 0, Act.run 0, Act.run 0, Act.run 0, Act.run 0]).map
      (fun s => (s.final, s.balance,
        9223372036854775807 + deposits [Call.add 1] - completedSum s.threads)) =
      some (true, -9223372036854775808, 9223372036854775808) := by
  decide

/-- C5, amended: for every interleaving of concurrent `addMoney` and `withdrawMoney` calls,
once all calls have returned the balance is the initial balance plus the sum of all deposited
amounts minus the sum of the amounts of the withdrawals that took the deducting branch,
reduced to the 64-bit signed range; it is exactly that sum whenever the sum fits. -/
theorem final_balance_accounts (cs : List Call) (b0 : Int) (hb : isLong b0) (acts : List Act)
    (s : State) (hexec : exec (State.init b0 (spawn cs)) acts = some s)
    (hfin : s.final = true) :
    s.balance = wrapLong (b0 + deposits cs - completedSum s.threads) ∧
      (isLong (b0 + deposits cs - completedSum s.threads) →
        s.balance = b0 + deposits cs - completedSum s.threads) := by
  have hI := (Inv.inv_init b0 hb cs).inv_exec acts hexec
  have hd : depositSum s.threads = deposits cs := by
    rw [depositSum_exec acts hexec]
    exact depositSum_spawn cs
  have heq : s.balance = wrapLong (b0 + deposits cs - completedSum s.threads) := by
    rw [hI.1, netEffect_of_final s.threads hfin, hd]
    congr 1
    omega
  exact ⟨heq, fun hfit => by rw [heq, wrapLong_of_isLong hfit]⟩

theorem final_balance_accounts_witness :
    exec (State.init 100 (spawn [Call.withdraw 600, Call.add 450, Call.withdraw 30]))
        [Act.run 1, Act.run 1, Act.run 1, Act.run 1, Act.run 1, Act.run 0, Act.run 0,
         Act.run 0, Act.run 0, Act.run 2, Act.run 2, Act.run 2, Act.run 2, Act.run 2,
         Act.run 2] =
        some ⟨520, none, [⟨600, Pc.wDone Outcome.rejected⟩, ⟨450, Pc.aDone⟩,
          ⟨30, Pc.wDone Outcome.completed⟩]⟩ ∧
      (520 : Int) = 100 + 450 - 30 :=
  ⟨by decide,
    ((final_balance_accounts [Call.withdraw 600, Call.add 450, Call.withdraw 30] 100
      (by decide)
      [Act.run 1, Act.run 1, Act.run 1, Act.run 1, Act.run 1, Act.run 0, Act.run 0,
        Act.run 0, Act.run 0, Act.run 2, Act.run 2, Act.run 2, Act.run 2, Act.run 2,
        Act.run 2]
      ⟨520, none, [⟨600, Pc.wDone Outcome.rejected⟩, ⟨450, Pc.aDone⟩,
        ⟨30, Pc.wDone Outcome.completed⟩]⟩
      (by decide) (by decide)).2 (by decide)).trans (by decide)⟩

/-! ## Thread level: a deposit is never suspended -/

theorem exists_blocked_of_anyBlocked (ts : List Thread) (h : anyBlocked ts = true) :
    ∃ (j : Nat) (u : Thread), ts[j]? = some u ∧ u.pc = Pc.wBlocked := by
  unfold anyBlocked at h
  rw [List.any_eq_true] at h
  obtain ⟨u, hu, hpc⟩ := h
  obtain ⟨j, hj⟩ := List.mem_iff_getElem?.mp hu
  exact ⟨j, u, hj, by simpa using hpc⟩

theorem enabled_of_isSome (s : State) (a : Act) (hp : a.isProper = true)
    (h : (step s a).isSome = true) : ∃ a s', a.isProper = true ∧ step s a = some s' := by
  obtain ⟨s', hs'⟩ := Option.isSome_iff_exists.mp h
  exact ⟨a, s', hp, hs'⟩

/-- An `addMoney` thread that has not returned can always move when `m` is free or its own:
nothing but the mutex ever holds it up. -/
theorem deposit_enabled (s : State) (i : Nat) (t : Thread) (hi : s.threads[i]? = some t)
    (hd : t.pc.isDeposit = true) (hn : t.pc ≠ Pc.aDone)
    (ho : s.owner = none ∨ t.pc.holds = true) :
    ∃ a s', a.isProper = true ∧ step s a = some s' := by
  obtain ⟨m, pc⟩ := t
  cases pc <;> simp only [Pc.isDeposit] at hd <;> try cases hd
  · rcases ho with ho | ho
    · exact enabled_of_isSome s (Act.run i) rfl (by simp [step, hi, stepThread, ho])
    · cases ho
  · exact enabled_of_isSome s (Act.run i) rfl (by simp [step, hi, stepThread])
  · exact enabled_of_isSome s (Act.run i) rfl (by simp [step, hi, stepThread])
  · by_cases hb : anyBlocked s.threads = true
    · obtain ⟨j, u, hj, hu⟩ := exists_blocked_of_anyBlocked s.threads hb
      exact enabled_of_isSome s (Act.notify i j) rfl (by simp [step, hi, hj, hu])
    · exact enabled_of_isSome s (Act.run i) rfl (by simp [step, hi, stepThread, hb])
  · exact enabled_of_isSome s (Act.run i) rfl (by simp [step, hi, stepThread])
  · exact absurd rfl hn

/-- C4: for a balance `b` and an amount `a > 0` whose sum fits the 64-bit balance,
`addMoney` returns with balance exactly `b + a`; run as a thread it takes its five statements
one after the other without ever being suspended, whatever `b` is; and among other threads
it can always move unless another thread holds `m`. -/
theorem deposit_adds_without_waiting (b a : Int) (_ha : 0 < a) (hfit : isLong (b + a)) :
    addMoney b a = ⟨Outcome.completed, b + a⟩ ∧
      exec (State.init b [Thread.deposit a])
          [Act.run 0, Act.run 0, Act.run 0, Act.run 0, Act.run 0] =
        some ⟨b + a, none, [⟨a, Pc.aDone⟩]⟩ ∧
      (∀ (s : State) (i : Nat) (t : Thread), s.threads[i]? = some t →
        t.pc.isDeposit = true → t.pc ≠ Pc.aDone → (s.owner = none ∨ t.pc.holds = true) →
        ∃ act s', act.isProper = true ∧ step s act = some s') := by
  refine ⟨?_, ?_, deposit_enabled⟩
  · simp [addMoney, wrapLong_of_isLong hfit]
  · simp [exec, step, stepThread, State.init, Thread.deposit, setPc, anyBlocked,
      wrapLong_of_isLong hfit]

theorem deposit_adds_without_waiting_witness :
    addMoney 0 500 = ⟨Outcome.completed, 0 + 500⟩ ∧
      exec (State.init 0 [Thread.deposit 500])
          [Act.run 0, Act.run 0, Act.run 0, Act.run 0, Act.run 0] =
        some ⟨0 + 500, none, [⟨500, Pc.aDone⟩]⟩ :=
  ⟨(deposit_adds_without_waiting 0 500 (by decide) (by decide)).1,
   (deposit_adds_without_waiting 0 500 (by decide) (by decide)).2.1⟩

/-! ## Thread level: wake-ups without a deposit -/

/-- With balance 0, a statement of a `withdrawMoney` thread leaves the balance 0, and a
thread inside `cv.wait` stays inside `cv.wait`. -/
theorem stepThread_zero {b0 : Int} {s s' : State} (h : Inv b0 s) (hz : s.balance = 0)
    {j : Nat} {u : Thread} (hj : s.threads[j]? = some u) (hd : u.pc.isDeposit = false)
    (hs : stepThread s j u = some s') :
    s'.balance = 0 ∧
      ∃ pc, s'.threads = setPc s.threads j u pc ∧ (u.pc.inWait = true → pc.inWait = true) := by
  have hok := h.2.1 j u hj
  obtain ⟨m, pc⟩ := u
  cases pc <;> simp only [Pc.isDeposit] at hd <;> try cases hd
  all_goals simp only [stepThread] at hs
  · split at hs
    · cases hs
      exact ⟨hz, _, rfl, fun _ => rfl⟩
    · cases hs
  · split at hs
    · rename_i hb
      exact absurd hz hb
    · cases hs
      exact ⟨hz, _, rfl, fun _ => rfl⟩
  · cases hs
  · split at hs
    · cases hs
      exact ⟨hz, _, rfl, fun _ => rfl⟩
    · cases hs
  · exact absurd hz (hok.2.2 rfl)
  · exact absurd hz (hok.2.2 rfl)
  · exact absurd hz (hok.2.2 rfl)
  · cases hs
    exact ⟨hz, _, rfl, fun hw => by cases hw⟩
  · cases hs

theorem noDeposit_setPc {ts : List Thread} {i : Nat} {t : Thread} (pc : Pc)
    (hi : ts[i]? = some t) (hk : pc.isDeposit = t.pc.isDeposit) (a : Act) :
    a.noDeposit (setPc ts i t pc) = a.noDeposit ts := by
  cases a with
  | run j =>
    simp only [Act.noDeposit]
    by_cases hji : i = j
    · subst hji
      rw [getElem?_setPc_self pc hi, hi]
      simp only [hk]
    · rw [getElem?_setPc_ne t pc hji]
  | notify _ _ => rfl
  | spurious _ => rfl

theorem inWait_setPc {ts : List Thread} {i j : Nat} {t u : Thread} (pc : Pc)
    (hi : ts[i]? = some t) (hw : t.pc.inWait = true) (hj : ts[j]? = some u)
    (hpc : j = i → pc.inWait = true) :
    ∃ t', (setPc ts j u pc)[i]? = some t' ∧ t'.pc.inWait = true := by
  by_cases hji : j = i
  · subst hji
    exact ⟨_, getElem?_setPc_self pc hj, hpc rfl⟩
  · exact ⟨t, by rw [getElem?_setPc_ne u pc hji]; exact hi, hw⟩

/-- One choice that is not a statement of an `addMoney` thread, taken with balance 0. -/
theorem step_zero {b0 : Int} {s s' : State} (h : Inv b0 s) (hz : s.balance = 0)
    {i : Nat} {t : Thread} (hi : s.threads[i]? = some t) (hw : t.pc.inWait = true)
    (a : Act) (hnd : a.noDeposit s.threads = true) (hs : step s a = some s') :
    s'.balance = 0 ∧ (∃ t', s'.threads[i]? = some t' ∧ t'.pc.inWait = true) ∧
      ∀ a', Act.noDeposit s'.threads a' = Act.noDeposit s.threads a' := by
  cases a with
  | run j =>
    simp only [step] at hs
    split at hs
    · rename_i u hj
      have hd : u.pc.isDeposit = false := by
        simp only [Act.noDeposit, hj] at hnd
        simpa using hnd
      obtain ⟨hz', pc, hpc, hin⟩ := stepThread_zero h hz hj hd hs
      obtain ⟨pc2, hpc2, hk⟩ := stepThread_shape hs
      refine ⟨hz', ?_, ?_⟩
      · rw [hpc]
        refine inWait_setPc pc hi hw hj ?_
        rintro rfl
        rw [hi] at hj
        cases hj
        exact hin hw
      · intro a'
        rw [hpc2]
        exact noDeposit_setPc pc2 hj hk a'
    · cases hs
  | notify k j =>
    simp only [step] at hs
    split at hs
    · rename_i v u hk hj
      split at hs
      · rename_i hpc
        cases hs
        have hkj : k ≠ j := by
          rintro rfl
          rw [hk] at hj
          cases hj
          rw [hpc.1] at hpc
          cases hpc.2
        have hj' : (setPc s.threads k v Pc.aUnlock)[j]? = some u := by
          rw [getElem?_setPc_ne _ _ hkj]
          exact hj
        refine ⟨hz, ?_, ?_⟩
        · obtain ⟨t1, ht1, hw1⟩ := inWait_setPc Pc.aUnlock hi hw hk (by
            rintro rfl
            rw [hi] at hk
            cases hk
            rw [hpc.1] at hw
            cases hw)
          exact inWait_setPc Pc.wWoken ht1 hw1 hj' (fun _ => rfl)
        · intro a'
          show Act.noDeposit (setPc (setPc s.threads k v Pc.aUnlock) j u Pc.wWoken) a' = _
          rw [noDeposit_setPc _ hj' (by rw [hpc.2]; rfl),
            noDeposit_setPc _ hk (by rw [hpc.1]; rfl)]
      · cases hs
    · cases hs
  | spurious j =>
    simp only [step] at hs
    split at hs
    · rename_i u hj
      split at hs
      · rename_i hpc
        cases hs
        exact ⟨hz, inWait_setPc Pc.wWoken hi hw hj (fun _ => rfl),
          fun a' => noDeposit_setPc _ hj (by rw [hpc]; rfl) a'⟩
      · cases hs
    · cases hs

/-- A whole run of such choices, started with balance 0. -/
theorem exec_zero {b0 : Int} (wakes : List Act) {s s' : State} (h : Inv b0 s)
    (hz : s.balance = 0) {i : Nat} {t : Thread} (hi : s.threads[i]? = some t)
    (hw : t.pc.inWait = true) (hnd : ∀ a ∈ wakes, a.noDeposit s.threads = true)
    (hs : exec s wakes = some s') :
    s'.balance = 0 ∧ ∃ t', s'.threads[i]? = some t' ∧ t'.pc.inWait = true := by
  induction wakes generalizing s t with
  | nil =>
    simp only [exec, Option.some.injEq] at hs
    subst hs
    exact ⟨hz, t, hi, hw⟩
  | cons a as ih =>
    simp only [exec] at hs
    split at hs
    · rename_i s1 h1
      obtain ⟨hz1, ⟨t1, hi1, hw1⟩, hk⟩ :=
        step_zero h hz hi hw a (hnd a (List.mem_cons_self a as)) h1
      refine ih (h.inv_step a h1) hz1 hi1 hw1 ?_ hs
      intro a' ha'
      rw [hk a']
      exact hnd a' (List.mem_cons_of_mem a ha')
    · cases hs

/-- C6: in every state reached by an interleaving of calls, a `withdrawMoney` thread that is
at its deduct-or-reject step (`if (balance >= money)`) sees `balance != 0`; and from a state
with balance 0 in which a thread is inside `cv.wait`, every run of wake-ups (spurious or
notified) and of statements of `withdrawMoney` threads, with no statement of an `addMoney`
thread, leaves the balance 0 and that thread inside `cv.wait`. -/
theorem wait_holds_while_zero (cs : List Call) (b0 : Int) (hb : isLong b0) (acts : List Act)
    (s : State) (hexec : exec (State.init b0 (spawn cs)) acts = some s) :
    (∀ (i : Nat) (t : Thread), s.threads[i]? = some t → t.pc = Pc.wCompare →
        s.balance ≠ 0) ∧
      (∀ (i : Nat) (t : Thread), s.threads[i]? = some t → t.pc.inWait = true →
        s.balance = 0 →
        ∀ (wakes : List Act) (s' : State),
          (∀ a ∈ wakes, a.noDeposit s.threads = true) → exec s wakes = some s' →
          s'.balance = 0 ∧ ∃ t', s'.threads[i]? = some t' ∧ t'.pc.inWait = true) := by
  have hI := (Inv.inv_init b0 hb cs).inv_exec acts hexec
  refine ⟨?_, ?_⟩
  · intro i t hi hpc
    exact (hI.2.1 i t hi).2.2 (by rw [hpc]; rfl)
  · intro i t hi hw hz wakes s' hnd hs
    exact exec_zero wakes hI hz hi hw hnd hs

theorem wait_holds_while_zero_witness :
    exec (State.init 0 (spawn [Call.withdraw 500, Call.add 0]))
        [Act.run 0, Act.run 0, Act.run 1, Act.run 1, Act.run 1, Act.notify 1 0, Act.run 1] =
        some ⟨0, none, [⟨500, Pc.wWoken⟩, ⟨0, Pc.aDone⟩]⟩ ∧
      exec ⟨0, none, [⟨500, Pc.wWoken⟩, ⟨0, Pc.aDone⟩]⟩
        [Act.run 0, Act.run 0, Act.spurious 0] =
        some ⟨0, none, [⟨500, Pc.wWoken⟩, ⟨0, Pc.aDone⟩]⟩ ∧
      ∃ t', (⟨0, none, [⟨500, Pc.wWoken⟩, ⟨0, Pc.aDone⟩]⟩ : State).threads[0]? = some t' ∧
        t'.pc.inWait = true :=
  ⟨by decide, by decide,
   ((wait_holds_while_zero [Call.withdraw 500, Call.add 0] 0 (by decide)
      [Act.run 0, Act.run 0, Act.run 1, Act.run 1, Act.run 1, Act.notify 1 0, Act.run 1]
      ⟨0, none, [⟨500, Pc.wWoken⟩, ⟨0, Pc.aDone⟩]⟩ (by decide)).2 0 ⟨500, Pc.wWoken⟩
      (by decide) (by decide) (by decide)
      [Act.run 0, Act.run 0, Act.spurious 0] ⟨0, none, [⟨500, Pc.wWoken⟩, ⟨0, Pc.aDone⟩]⟩
      (by decide) (by decide)).2⟩

/-! ## The program of `main`: one withdrawal and one deposit of the same amount -/

theorem wrapLong_int {a : Int} (h : isInt a) : wrapLong a = a := by
  unfold isInt INT_MIN INT_MAX at h
  unfold wrapLong
  omega

theorem MainInv.main_init (a : Int) : MainInv a (mainState a) :=
  ⟨Pc.wLock, Pc.aLock, rfl, rfl⟩

/-- The listed states are closed under every scheduler choice. -/
theorem MainInv.main_step {a : Int} (ha : 0 < a) (hi : isInt a) {s s' : State}
    (h : MainInv a s) (act : Act) (hs : step s act = some s') : MainInv a s' := by
  obtain ⟨bal, own, ts⟩ := s
  obtain ⟨wp, dp, hts, htab⟩ := h
  simp only at hts htab
  subst hts
  have hw : wrapLong a = a := wrapLong_int hi
  have hw0 : wrapLong 0 = 0 := rfl
  have hne : a ≠ 0 := by omega
  rcases wp with _ | _ | t1 | _ | _ | _ | _ | _ | _ | _ | _ | _ | t2 | (_ | _ | _) |
      (_ | _ | _) <;>
    cases dp <;> simp only [mainTable] at htab <;>
    (try split at htab) <;> (try cases htab) <;> (try subst_vars) <;>
    (cases act with
     | run i =>
       match i with
       | 0 =>
         simp [Ledger.step, stepThread, setPc, anyBlocked, hne, hw, hw0] at hs <;>
         (try subst hs) <;> exact ⟨_, _, rfl, by simp [mainTable]⟩
       | 1 =>
         simp [Ledger.step, stepThread, setPc, anyBlocked, hne, hw, hw0] at hs <;>
         (try subst hs) <;> exact ⟨_, _, rfl, by simp [mainTable]⟩
       | n + 2 => simp [Ledger.step] at hs
     | notify i j =>
       match i, j with
       | 0, 0 => simp [Ledger.step] at hs
       | 0, 1 => simp [Ledger.step] at hs
       | 0, n + 2 => simp [Ledger.step] at hs
       | 1, 0 =>
         simp [Ledger.step, setPc] at hs <;>
         (try subst hs) <;> exact ⟨_, _, rfl, by simp [mainTable]⟩
       | 1, 1 => simp [Ledger.step] at hs
       | 1, n + 2 => simp [Ledger.step] at hs
       | n + 2, _ => simp [Ledger.step] at hs
     | spurious j =>
       match j with
       | 0 =>
         simp [Ledger.step, setPc] at hs <;>
         (try subst hs) <;> exact ⟨_, _, rfl, by simp [mainTable]⟩
       | 1 => simp [Ledger.step] at hs
       | n + 2 => simp [Ledger.step] at hs)

theorem MainInv.main_exec {a : Int} (ha : 0 < a) (hi : isInt a) (acts : List Act) {s s' : State}
    (h : MainInv a s) (hs : exec s acts = some s') : MainInv a s' := by
  induction acts generalizing s with
  | nil =>
    simp only [Ledger.exec, Option.some.injEq] at hs
    subst hs
    exact h
  | cons x xs ih =>
    simp only [Ledger.exec] at hs
    split at hs
    · rename_i s1 h1
      exact ih (h.main_step ha hi x h1) hs
    · cases hs

/-- In a listed state in which some call has not returned, a choice other than a spurious
wake-up is enabled. -/
theorem MainInv.main_progress {a : Int} (ha : 0 < a) {s : State} (h : MainInv a s)
    (hf : s.final = false) : ∃ act s', act.isProper = true ∧ Ledger.step s act = some s' := by
  obtain ⟨bal, own, ts⟩ := s
  obtain ⟨wp, dp, hts, htab⟩ := h
  simp only at hts htab
  subst hts
  have hne : a ≠ 0 := by omega
  refine enabled_of_isSome _ (mainNext wp dp) ?_ ?_
  · cases dp <;> cases wp <;> rfl
  · rcases wp with _ | _ | t1 | _ | _ | _ | _ | _ | _ | _ | _ | _ | t2 | (_ | _ | _) |
        (_ | _ | _) <;>
      cases dp <;> simp only [mainTable] at htab <;>
      (try split at htab) <;> (try cases htab) <;> (try subst_vars) <;>
      first
      | (simp [State.final, Pc.isDone] at hf; done)
      | simp [mainNext, Ledger.step, stepThread, setPc, anyBlocked, hne]

/-- In a listed state in which both calls have returned, the withdrawal took the deducting
branch and the balance is 0. -/
theorem MainInv.main_final {a : Int} {s : State} (h : MainInv a s) (hf : s.final = true) :
    s.threads = [⟨a, Pc.wDone Outcome.completed⟩, ⟨a, Pc.aDone⟩] ∧ s.balance = 0 := by
  obtain ⟨bal, own, ts⟩ := s
  obtain ⟨wp, dp, hts, htab⟩ := h
  simp only at hts htab
  subst hts
  rcases wp with _ | _ | t1 | _ | _ | _ | _ | _ | _ | _ | _ | _ | t2 | (_ | _ | _) |
      (_ | _ | _) <;>
    cases dp <;> simp only [mainTable] at htab <;>
    (try split at htab) <;> (try cases htab) <;>
    first
    | (simp [State.final, Pc.isDone] at hf; done)
    | exact ⟨rfl, rfl⟩

/-! ## Withdrawals of 1 from a ledger pre-loaded with `n` -/

theorem owing_returned (n : Nat) :
    owing (⟨n, Pc.aDone⟩ :: List.replicate n ⟨1, Pc.wDone Outcome.completed⟩) = 0 := by
  induction n with
  | zero => rfl
  | succ k ih =>
    simp only [owing, List.replicate_succ, List.map_cons, List.sum_cons] at ih ⊢
    simp only [Pc.owes] at ih ⊢
    simp

/-- Once every call has returned, every withdrawal has taken the deducting branch and the
balance is 0. -/
theorem FairInv.fair_final {n : Nat} {s : State} (h : FairInv n s) (hf : s.final = true) :
    s.threads = ⟨n, Pc.aDone⟩ :: List.replicate n ⟨1, Pc.wDone Outcome.completed⟩ ∧
      s.balance = 0 := by
  have hts : s.threads = ⟨n, Pc.aDone⟩ :: List.replicate n ⟨1, Pc.wDone Outcome.completed⟩ := by
    apply List.ext_getElem?
    intro i
    cases i with
    | zero => rw [h.2.2.1]; simp
    | succ k =>
      rw [List.getElem?_cons_succ, List.getElem?_replicate]
      split
      · rename_i hk
        have hlt : k + 1 < s.threads.length := by rw [h.2.1]; omega
        rw [List.getElem?_eq_getElem hlt]
        have hget : s.threads[k + 1]? = some s.threads[k + 1] := List.getElem?_eq_getElem hlt
        obtain ⟨hm, htr⟩ := h.2.2.2.1 k _ hget
        have hdone : s.threads[k + 1].pc.isDone = true := by
          unfold State.final at hf
          rw [List.all_eq_true] at hf
          exact hf _ (List.getElem_mem hlt)
        generalize s.threads[k + 1] = t at hm htr hdone
        obtain ⟨m, pc⟩ := t
        simp only at hm
        subst hm
        rcases pc with _ | _ | t1 | _ | _ | _ | _ | _ | _ | _ | _ | _ | t2 | (_ | _ | _) |
          (_ | _ | _) <;> simp only [Pc.onTrack] at htr <;> (try cases htr) <;>
          simp only [Pc.isDone] at hdone <;> (try cases hdone)
        rfl
      · rename_i hk
        rw [List.getElem?_eq_none_iff, h.2.1]
        omega
  refine ⟨hts, ?_⟩
  rw [h.2.2.2.2, hts]
  exact owing_returned n

/-! ## A thread run alone does what the call-level function says -/

/-- Run alone, an `addMoney` thread returns after five statements with the balance that
`addMoney` gives. -/
theorem deposit_thread_alone (b a : Int) :
    exec (State.init b [Thread.deposit a])
      [Act.run 0, Act.run 0, Act.run 0, Act.run 0, Act.run 0] =
      some ⟨(addMoney b a).balance, none, [⟨a, Pc.aDone⟩]⟩ := by
  simp [exec, step, stepThread, State.init, Thread.deposit, setPc, anyBlocked, addMoney]

/-- Run alone on balance 0, a `withdrawMoney` thread is suspended on `cv` after two
statements; on a nonzero balance it returns after six statements (deducting branch) or four
(rejecting branch), with the outcome and the balance that `withdrawMoney` gives, without
passing through the suspended state. -/
theorem withdraw_thread_alone (b a : Int) :
    (b = 0 →
      exec (State.init b [Thread.withdrawal a]) [Act.run 0, Act.run 0] =
          some ⟨(withdrawMoney b a).balance, none, [⟨a, Pc.wBlocked⟩]⟩ ∧
        (withdrawMoney b a).outcome = Outcome.waiting) ∧
    (b ≠ 0 → b ≥ a →
      exec (State.init b [Thread.withdrawal a])
          [Act.run 0, Act.run 0, Act.run 0, Act.run 0, Act.run 0, Act.run 0] =
          some ⟨(withdrawMoney b a).balance, none, [⟨a, Pc.wDone (withdrawMoney b a).outcome⟩]⟩ ∧
        (withdrawMoney b a).outcome = Outcome.completed) ∧
    (b ≠ 0 → b < a →
      exec (State.init b [Thread.withdrawal a]) [Act.run 0, Act.run 0, Act.run 0, Act.run 0] =
          some ⟨(withdrawMoney b a).balance, none, [⟨a, Pc.wDone (withdrawMoney b a).outcome⟩]⟩ ∧
        (withdrawMoney b a).outcome = Outcome.rejected) := by
  refine ⟨?_, ?_, ?_⟩
  · intro h0
    subst h0
    simp [exec, step, stepThread, State.init, Thread.withdrawal, setPc, withdrawMoney]
  · intro h0 hge
    simp [exec, step, stepThread, State.init, Thread.withdrawal, setPc, withdrawMoney, h0, hge]
  · intro h0 hlt
    have hge : ¬ a ≤ b := by omega
    simp [exec, step, stepThread, State.init, Thread.withdrawal, setPc, withdrawMoney, h0, hge]

/-! ## Outside the pre-loading scenario: `notify_one` wakes one waiter only -/

/-- Every choice other than a spurious wake-up lowers the rank of a listed state. -/
theorem MainInv.main_rank_step {a : Int} (ha : 0 < a) (hi : isInt a) {s s' : State}
    (h : MainInv a s) (act : Act) (hp : act.isProper = true)
    (hs : Ledger.step s act = some s') : mainRank s' < mainRank s := by
  obtain ⟨bal, own, ts⟩ := s
  obtain ⟨wp, dp, hts, htab⟩ := h
  simp only at hts htab
  subst hts
  have hw : wrapLong a = a := wrapLong_int hi
  have hw0 : wrapLong 0 = 0 := rfl
  have hne : a ≠ 0 := by omega
  rcases wp with _ | _ | t1 | _ | _ | _ | _ | _ | _ | _ | _ | _ | t2 | (_ | _ | _) |
      (_ | _ | _) <;>
    cases dp <;> simp only [mainTable] at htab <;>
    (try split at htab) <;> (try cases htab) <;> (try subst_vars) <;>
    (cases act with
     | run i =>
       match i with
       | 0 =>
         simp [Ledger.step, stepThread, setPc, anyBlocked, hne, hw, hw0] at hs <;>
         (try subst hs) <;> simp [mainRank, withdrawRank, depositRank, Pc.stored]
       | 1 =>
         simp [Ledger.step, stepThread, setPc, anyBlocked, hne, hw, hw0] at hs <;>
         (try subst hs) <;> simp [mainRank, withdrawRank, depositRank, Pc.stored]
       | n + 2 => simp [Ledger.step] at hs
     | notify i j =>
       match i, j with
       | 0, 0 => simp [Ledger.step] at hs
       | 0, 1 => simp [Ledger.step] at hs
       | 0, n + 2 => simp [Ledger.step] at hs
       | 1, 0 =>
         simp [Ledger.step, setPc] at hs <;>
         (try subst hs) <;> simp [mainRank, withdrawRank, depositRank, Pc.stored]
       | 1, 1 => simp [Ledger.step] at hs
       | 1, n + 2 => simp [Ledger.step] at hs
       | n + 2, _ => simp [Ledger.step] at hs
     | spurious j => cases hp)

theorem mainRank_le (s : State) : mainRank s ≤ 16 := by
  obtain ⟨bal, own, ts⟩ := s
  unfold mainRank
  split
  · rename_i w d _
    have h1 : ∀ (b : Bool) (p : Pc), withdrawRank b p ≤ 11 := by
      intro b p
      cases p <;> cases b <;> simp [withdrawRank]
    have h2 : ∀ p : Pc, depositRank p ≤ 5 := by
      intro p
      cases p <;> simp [depositRank]
    have := h1 d.pc.stored w.pc
    have := h2 d.pc
    omega
  · omega

/-- From a listed state, a run without spurious wake-ups is no longer than the rank. -/
theorem MainInv.main_bounded {a : Int} (ha : 0 < a) (hi : isInt a) (acts : List Act)
    {s s' : State} (h : MainInv a s) (hp : ∀ x ∈ acts, x.isProper = true)
    (hs : Ledger.exec s acts = some s') : acts.length + mainRank s' ≤ mainRank s := by
  induction acts generalizing s with
  | nil =>
    simp only [Ledger.exec, Option.some.injEq] at hs
    subst hs
    simp
  | cons x xs ih =>
    simp only [Ledger.exec] at hs
    split at hs
    · rename_i s1 h1
      have hx := hp x (List.mem_cons_self x xs)
      have hlt := h.main_rank_step ha hi x hx h1
      have := ih (h.main_step ha hi x h1) (fun y hy => hp y (List.mem_cons_of_mem x hy)) hs
      simp only [List.length_cons]
      omega
    · cases hs

/-- C7: for every amount `a > 0` of type `int`, the program that starts at balance 0 with one
thread calling `withdrawMoney(a)` and one calling `addMoney(a)` never deadlocks: in every
reachable state, spurious wake-ups allowed, either a choice other than a spurious wake-up is
enabled, or both calls have returned, the withdrawal from the deducting branch, and the
balance is 0; and from a reachable state no run without spurious wake-ups is longer than 16
choices, so that such runs end in a state where both calls have returned. -/
theorem main_never_deadlocks (a : Int) (ha : 0 < a) (hi : isInt a) (acts : List Act)
    (s : State) (hexec : exec (mainState a) acts = some s) :
    (s.final = false → ∃ act s', act.isProper = true ∧ step s act = some s') ∧
      (s.final = true →
        s.threads = [⟨a, Pc.wDone Outcome.completed⟩, ⟨a, Pc.aDone⟩] ∧ s.balance = 0) ∧
      (∀ (more : List Act) (s' : State), (∀ x ∈ more, x.isProper = true) →
        exec s more = some s' → more.length ≤ 16) := by
  have h := (MainInv.main_init a).main_exec ha hi acts hexec
  refine ⟨h.main_progress ha, h.main_final, ?_⟩
  intro more s' hp hs
  have h1 := h.main_bounded ha hi more hp hs
  have h2 := mainRank_le s
  omega

theorem main_never_deadlocks_witness :
    exec mainInit
        [Act.run 0, Act.run 0, Act.run 1, Act.spurious 0, Act.run 1, Act.run 1, Act.run 1,
         Act.run 1, Act.run 0, Act.run 0, Act.run 0, Act.run 0, Act.run 0, Act.run 0] =
        some ⟨0, none, [⟨500, Pc.wDone Outcome.completed⟩, ⟨500, Pc.aDone⟩]⟩ ∧
      (⟨0, none, [⟨500, Pc.wDone Outcome.completed⟩, ⟨500, Pc.aDone⟩]⟩ : State).balance = 0 :=
  ⟨by decide,
   ((main_never_deadlocks 500 (by decide) (by decide)
      [Act.run 0, Act.run 0, Act.run 1, Act.spurious 0, Act.run 1, Act.run 1, Act.run 1,
       Act.run 1, Act.run 0, Act.run 0, Act.run 0, Act.run 0, Act.run 0, Act.run 0]
      ⟨0, none, [⟨500, Pc.wDone Outcome.completed⟩, ⟨500, Pc.aDone⟩]⟩ (by decide)).2.1
      (by decide)).2⟩

/-! ## The pre-loading scenario finishes after `6 n` steps -/

theorem sound_not_isDeposit {pc : Pc} (h : pc.sound = true) : pc.isDeposit = false := by
  cases pc <;> simp_all [Pc.sound, Pc.isDeposit]

end Ledger

namespace Basics

/-! ## The summation loops -/

theorem evenTotal_empty (i e : Nat) (h : e < i) : evenTotal i e = 0 := by
  unfold evenTotal
  rw [Finset.Icc_eq_empty_of_lt h]
  rfl

theorem oddTotal_empty (i e : Nat) (h : e < i) : oddTotal i e = 0 := by
  unfold oddTotal
  rw [Finset.Icc_eq_empty_of_lt h]
  rfl

theorem evenTotal_first (i e : Nat) (h : i ≤ e) :
    evenTotal i e = (if i % 2 = 0 then i else 0) + evenTotal (i + 1) e := by
  unfold evenTotal
  rw [← Nat.Icc_insert_succ_left h, Finset.filter_insert]
  split
  · rw [Finset.sum_insert]
    simp
  · simp

theorem oddTotal_first (i e : Nat) (h : i ≤ e) :
    oddTotal i e = (if i % 2 = 1 then i else 0) + oddTotal (i + 1) e := by
  unfold oddTotal
  rw [← Nat.Icc_insert_succ_left h, Finset.filter_insert]
  split
  · rw [Finset.sum_insert]
    simp
  · simp

/-- Loop invariant of `findEven`: from the current `i`, with more evaluations of the
condition allowed than there are values left, the loop exits with `EvenSum` increased by the
even values from `i` to `end`, modulo `2^64`. -/
theorem findEvenLoop_spec (e : Nat) (he : e + 1 < ULL) (k : Nat) :
    ∀ (i sum fuel : Nat), sum < ULL → e + 1 - i = k → k < fuel →
      findEvenLoop fuel i e sum = some ((sum + evenTotal i e) % ULL) := by
  induction k with
  | zero =>
    intro i sum fuel hsum hk hfuel
    obtain ⟨f, rfl⟩ : ∃ f, fuel = f + 1 := ⟨fuel - 1, by omega⟩
    have hlt : e < i := by omega
    rw [findEvenLoop, if_neg (by omega), evenTotal_empty i e hlt, Nat.add_zero,
      Nat.mod_eq_of_lt hsum]
  | succ k ih =>
    intro i sum fuel hsum hk hfuel
    obtain ⟨f, rfl⟩ : ∃ f, fuel = f + 1 := ⟨fuel - 1, by omega⟩
    have hle : i ≤ e := by omega
    have hi1 : (i + 1) % ULL = i + 1 := Nat.mod_eq_of_lt (by omega)
    rw [findEvenLoop, if_pos hle, hi1, evenTotal_first i e hle, Nat.and_one_is_mod]
    unfold ULL at *
    split
    · rw [ih (i + 1) _ f (Nat.mod_lt _ (by decide)) (by omega) (by omega)]
      congr 1
      omega
    · rw [ih (i + 1) _ f hsum (by omega) (by omega)]
      congr 1
      omega

/-- Loop invariant of `findOdd`. -/
theorem findOddLoop_spec (e : Nat) (he : e + 1 < ULL) (k : Nat) :
    ∀ (i sum fuel : Nat), sum < ULL → e + 1 - i = k → k < fuel →
      findOddLoop fuel i e sum = some ((sum + oddTotal i e) % ULL) := by
  induction k with
  | zero =>
    intro i sum fuel hsum hk hfuel
    obtain ⟨f, rfl⟩ : ∃ f, fuel = f + 1 := ⟨fuel - 1, by omega⟩
    have hlt : e < i := by omega
    rw [findOddLoop, if_neg (by omega), oddTotal_empty i e hlt, Nat.add_zero,
      Nat.mod_eq_of_lt hsum]
  | succ k ih =>
    intro i sum fuel hsum hk hfuel
    obtain ⟨f, rfl⟩ : ∃ f, fuel = f + 1 := ⟨fuel - 1, by omega⟩
    have hle : i ≤ e := by omega
    have hi1 : (i + 1) % ULL = i + 1 := Nat.mod_eq_of_lt (by omega)
    rw [findOddLoop, if_pos hle, hi1, oddTotal_first i e hle, Nat.and_one_is_mod]
    unfold ULL at *
    split
    · rw [ih (i + 1) _ f (Nat.mod_lt _ (by decide)) (by omega) (by omega)]
      congr 1
      omega
    · rw [ih (i + 1) _ f hsum (by omega) (by omega)]
      congr 1
      omega

/-- Closed form: the even numbers up to `2 m` add up to `m (m + 1)`. -/
theorem evenTotal_closed (m : Nat) : evenTotal 0 (2 * m) = m * (m + 1) := by
  induction m with
  | zero => decide
  | succ k ih =>
    unfold evenTotal at ih ⊢
    have h1 : 2 * (k + 1) = (2 * k + 1) + 1 := by ring
    rw [h1, ← Nat.Icc_insert_succ_right (by omega), ← Nat.Icc_insert_succ_right (by omega),
      Finset.filter_insert, Finset.filter_insert]
    rw [if_pos (by omega), if_neg (by omega), Finset.sum_insert, ih]
    · ring
    · simp only [Finset.mem_filter, Finset.mem_Icc]
      omega

/-- Closed form: the odd numbers up to `2 m` add up to `m ^ 2`. -/
theorem oddTotal_closed (m : Nat) : oddTotal 0 (2 * m) = m * m := by
  induction m with
  | zero => decide
  | succ k ih =>
    unfold oddTotal at ih ⊢
    have h1 : 2 * (k + 1) = (2 * k + 1) + 1 := by ring
    rw [h1, ← Nat.Icc_insert_succ_right (by omega), ← Nat.Icc_insert_succ_right (by omega),
      Finset.filter_insert, Finset.filter_insert]
    rw [if_neg (by omega), if_pos (by omega), Finset.sum_insert, ih]
    · ring
    · simp only [Finset.mem_filter, Finset.mem_Icc]
      omega

/-- With `end = 2^64 - 1` the condition `i <= end` never fails: the loop does not exit,
whatever the bound on the number of evaluations. -/
theorem findEvenLoop_no_exit (fuel : Nat) :
    ∀ (i sum : Nat), i < ULL → findEvenLoop fuel i (ULL - 1) sum = none := by
  induction fuel with
  | zero => intro i sum _; rfl
  | succ f ih =>
    intro i sum hi
    rw [findEvenLoop, if_pos (by omega)]
    exact ih _ _ (Nat.mod_lt _ (by decide))

/-- C10: for every `start` and every `end < 2^64 - 1`, `findEven(start, end)` exits its loop
(any bound above `end + 1 - start` on the evaluations of the condition suffices) and leaves
`EvenSum` increased by the sum of the even `i` with `start <= i <= end`, modulo `2^64`;
`findOdd` does the same to `OddSum` with the odd `i`; for the range `0..2600000000` of `main`
the sums are 1690000001300000000 and 1690000000000000000, below `2^64`. -/
theorem sums_computed (start e EvenSum OddSum : Nat) (he : e < ULL - 1) (h1 : EvenSum < ULL)
    (h2 : OddSum < ULL) :
    (∀ fuel, e + 1 - start < fuel →
        findEven fuel start e EvenSum = some ((EvenSum + evenTotal start e) % ULL)) ∧
      (∀ fuel, e + 1 - start < fuel →
        findOdd fuel start e OddSum = some ((OddSum + oddTotal start e) % ULL)) ∧
      findEven 2600000002 0 2600000000 0 = some 1690000001300000000 ∧
      findOdd 2600000002 0 2600000000 0 = some 1690000000000000000 ∧
      evenTotal 0 2600000000 = 1690000001300000000 ∧
      oddTotal 0 2600000000 = 1690000000000000000 ∧
      1690000001300000000 < ULL := by
  have he' : e + 1 < ULL := by unfold ULL at *; omega
  have hE : evenTotal 0 2600000000 = 1690000001300000000 := evenTotal_closed 1300000000
  have hO : oddTotal 0 2600000000 = 1690000000000000000 := oddTotal_closed 1300000000
  refine ⟨?_, ?_, ?_, ?_, hE, hO, by decide⟩
  · intro fuel hf
    exact findEvenLoop_spec e he' _ start EvenSum fuel h1 rfl hf
  · intro fuel hf
    exact findOddLoop_spec e he' _ start OddSum fuel h2 rfl hf
  · have := findEvenLoop_spec 2600000000 (by decide) _ 0 0 2600000002 (by decide) rfl
      (by decide)
    rw [hE] at this
    exact this
  · have := findOddLoop_spec 2600000000 (by decide) _ 0 0 2600000002 (by decide) rfl
      (by decide)
    rw [hO] at this
    exact this

theorem sums_computed_witness :
    findEven 11 1 10 0 = some ((0 + evenTotal 1 10) % ULL) ∧
      findOdd 11 1 10 5 = some ((5 + oddTotal 1 10) % ULL) ∧ findEven 11 1 10 0 = some 30 :=
  ⟨(sums_computed 1 10 0 5 (by decide) (by decide) (by decide)).1 11 (by decide),
   (sums_computed 1 10 0 5 (by decide) (by decide) (by decide)).2.1 11 (by decide),
   by decide⟩

end Basics
